import Mathlib

/-!
Shallow Lean embedding of the binning / aggregation core of
`brightwind/analyse/analyse.py` (the `dist*`, `freq_table`,
`time_continuity_gaps` and `TI.calc` family), together with theorems
settling the frozen claims about that code.

Conventions of the embedding:
* numeric sample values are rationals (`ℚ`); the claims under scrutiny are
  about exact bin arithmetic, not floating-point rounding;
* a pandas `Series` is a list of `(timestamp, value)` pairs, a missing value
  (`NaN`) is `Option.none`; an aligned dataset (the inner join the source
  builds with `pd.concat(..., join='inner')`) is a list of value tuples;
* `np.digitize`, `pd.cut`, `np.arange`, `np.linspace` and Python's `round`
  are translated for the strictly increasing edge lists the code feeds them.
-/

namespace Brightwind

/-- Python `max` over a list of rationals (the source's `max(bins)`); `0` for
the empty list, which the source never passes. -/
def listMax : List ℚ → ℚ
  | [] => 0
  | x :: xs => xs.foldl max x

/-- Embedding of `np.digitize([x], bins, right=...)[0]` for a strictly
increasing `bins`: with `right := false` it returns the number of edges
`≤ x`, with `right := true` the number of edges `< x`. -/
def digitize (x : ℚ) (bins : List ℚ) (right : Bool) : ℕ :=
  if right then bins.countP (fun b => decide (b < x))
  else bins.countP (fun b => decide (b ≤ x))

/-- Embedding of `_map_direction_bin(wdir, bins, sectors)` from `analyse.py`:
insertion point of `wdir` into the sector edge list, right-closed exactly at
the maximum edge, and an insertion index of `sectors + 1` is wrapped to `1`. -/
def map_direction_bin (wdir : ℚ) (bins : List ℚ) (sectors : ℕ) : ℕ :=
  let bin_num := digitize wdir bins (decide (wdir = listMax bins))
  if bin_num = sectors + 1 then 1 else bin_num

/-- Modelled from the spec: `utils.get_direction_bin_array(sectors)`, which
`analyse.py` imports from outside the sources under review.  Per the spec's
Bin Edge Builder contract the zero-centred direction edges have width
`360/S` and start at `-360/(2S)`; per the spec's label rule and scenarios the
second-to-last edge of the array is `360 - 180/S` (giving the zero-centred
label `345-15` for `S = 12`), so the array is `-180/S + i * 360/S` for
`i = 0, …, S+1`. -/
def get_direction_bin_array (sectors : ℕ) : List ℚ :=
  (List.range (sectors + 2)).map fun i : ℕ =>
    -(180 : ℚ)/sectors + (i : ℚ) * (360/sectors)

/-- Render a rational edge the way the spec writes bin labels: integral
edges without a fractional part. -/
def ratStr (q : ℚ) : String :=
  if q.den = 1 then toString q.num else toString q

/-- Embedding of `_get_direction_bin_labels(sectors, direction_bins,
zero_centred)` from `analyse.py`: label `i+1` is `"<bins[i]>-<bins[i+1]>"`,
except that with `zero_centred` the first label spans
`"<bins[-2]>-<bins[1]>"`. -/
def get_direction_bin_labels (sectors : ℕ) (direction_bins : List ℚ)
    (zero_centred : Bool) : List String :=
  (List.range sectors).map fun i =>
    if i = 0 ∧ zero_centred then
      ratStr (direction_bins.getD (direction_bins.length - 2) 0) ++ "-" ++
        ratStr (direction_bins.getD 1 0)
    else
      ratStr (direction_bins.getD i 0) ++ "-" ++
        ratStr (direction_bins.getD (i + 1) 0)

/-- Python 3 `round(q)` (and `np.float64.__round__`): round half to even. -/
def pyround (q : ℚ) : ℤ :=
  let f := Int.floor q
  if q - f < 1/2 then f
  else if 1/2 < q - f then f + 1
  else if Even f then f else f + 1

/-- Truth of `x % 1 == 0` on a rational: `x` is an exact integer. -/
def isIntQ (q : ℚ) : Bool := q.den == 1

/-- Embedding of `np.arange(start, stop, 1)`: the `⌈stop - start⌉` values
`start, start + 1, …` (empty when `stop ≤ start`). -/
def arange1 (start stop : ℚ) : List ℚ :=
  (List.range (Int.toNat ⌈stop - start⌉)).map fun i : ℕ => start + (i : ℚ)

/-- Embedding of `np.linspace(lo, hi, n + 1)`: `n + 1` evenly spaced points
from `lo` to `hi` inclusive. -/
def linspace (lo hi : ℚ) (n : ℕ) : List ℚ :=
  (List.range (n + 1)).map fun i : ℕ => lo + (i : ℚ) * ((hi - lo)/n)

/-- Default bin edges of `dist_matrix` and `dist_matrix_by_dir_sector`:
`np.arange(int(np.floor(min)), int(np.ceil(max) + 1 + (max % 1 == 0)), 1)`. -/
def matrix_default_bins (mn mx : ℚ) : List ℚ :=
  arange1 (Int.floor mn) ((Int.ceil mx : ℚ) + 1 + (if isIntQ mx then 1 else 0))

/-- Bin-edge selection of `dist_matrix` (and `dist_matrix_by_dir_sector`):
an explicit edge array is used verbatim, else an explicit count gives
`count + 1` evenly spaced edges over `[min, max]`, else the unit-width
default. -/
def dist_matrix_bins (mn mx : ℚ) (num_bins : Option ℕ) (bins : Option (List ℚ)) :
    List ℚ :=
  match num_bins, bins with
  | none, none => matrix_default_bins mn mx
  | some n, none => linspace mn mx n
  | _, some bs => bs

/-- Default bin edges of `dist`:
`np.arange(round(min - 0.5) - 0.5, max + 0.5, 1)`. -/
def dist_default_bins (mn mx : ℚ) : List ℚ :=
  arange1 ((pyround (mn - 1/2) : ℚ) - 1/2) (mx + 1/2)

/-- Embedding of `pd.cut(v, bins, right=False)` for one value over a strictly
increasing edge list: the index of the half-open interval
`[bins[i], bins[i+1])` containing `v`, `none` (pandas `NaN`) outside
`[bins[0], bins[-1])`. -/
def linear_cut (bins : List ℚ) (v : ℚ) : Option ℕ :=
  let j := bins.countP (fun b => decide (b ≤ v))
  if 1 ≤ j ∧ j < bins.length then some (j - 1) else none

/-- The `%frequency` distribution `dist` returns: the aligned dataset is the
inner join of the (cleaned) variable series with the binned series, one
`(value, value-binned-against)` pair per row.  Pandas groups by the `pd.cut`
categorical, so every interval of `bins` appears, and divides each interval's
row count by `len(data)` — the row count of the join, which still includes
rows whose bin is `NaN` (value outside the edges). -/
def dist_freq (rows : List (ℚ × ℚ)) (bins : List ℚ) : List (ℕ × ℚ) :=
  (List.range (bins.length - 1)).map fun i =>
    (i, ((rows.countP fun p => decide (linear_cut bins p.2 = some i)) : ℚ) /
      rows.length * 100)

/-- A pandas float cell: finite, infinite or `NaN`. -/
inductive FloatVal where
  | num (q : ℚ)
  | inf
  | neginf
  | nan
deriving DecidableEq

/-- Whether a cell is a finite number (neither infinite nor `NaN`). -/
def FloatVal.isFinite : FloatVal → Bool
  | .num _ => true
  | _ => false

/-- The distribution `dist` returns on the custom-aggregation path:
`data.groupby(['variable_bin'])['data'].agg(aggregation_method)`, one cell
per interval of the `pd.cut` categorical. -/
def dist_agg_returned (rows : List (ℚ × ℚ)) (bins : List ℚ)
    (agg : List ℚ → FloatVal) : List (ℕ × FloatVal) :=
  (List.range (bins.length - 1)).map fun i =>
    (i, agg ((rows.filter fun p => decide (linear_cut bins p.2 = some i)).map
      Prod.fst))

/-- Embedding of `distribution.replace([np.inf, -np.inf], np.NAN).dropna()`:
infinities become `NaN` and `NaN` entries are dropped, keeping exactly the
finite cells. -/
def replace_inf_dropna (l : List (ℕ × FloatVal)) : List (ℕ × FloatVal) :=
  l.filter fun p => p.2.isFinite

/-- The series `dist` hands to the plot renderer (`plt.plot_freq_distribution`):
the cleaned copy of the distribution, not the distribution itself. -/
def dist_plot_input (rows : List (ℚ × ℚ)) (bins : List ℚ)
    (agg : List ℚ → FloatVal) : List (ℕ × FloatVal) :=
  replace_inf_dropna (dist_agg_returned rows bins agg)

/-- Embedding of a pandas index assignment `result.index = labels`: pandas
raises a `ValueError` when the lengths differ, otherwise relabels
positionally. -/
def set_index (labels : List String) (vals : List (ℕ × ℚ)) :
    Except String (List (String × ℚ)) :=
  if labels.length = vals.length then .ok (labels.zip (vals.map Prod.snd))
  else .error "Length mismatch"

/-- The direction-binned aligned dataset of `dist_by_dir_sector`: each joined
row keeps its variable value and gets the sector id of its direction. -/
def direction_binned (rows : List (ℚ × ℚ)) (bins : List ℚ) (sectors : ℕ) :
    List (ℚ × ℕ) :=
  rows.map fun p => (p.1, map_direction_bin p.2 bins sectors)

/-- Core of `dist_by_dir_sector` after aggregation: group the aligned rows by
sector id, apply the statistic to each observed group, then reconcile —
every sector `1..S` missing from the result is filled with `0.0` and the
entries are re-sorted by ascending sector id (`result.sort_index()`). -/
def dist_by_dir_sector_core (rows : List (ℚ × ℚ)) (sectors : ℕ)
    (bins : List ℚ) (statOf : List ℚ → ℚ) : List (ℕ × ℚ) :=
  let binned := direction_binned rows bins sectors
  let observed := (binned.map Prod.snd).toFinset
  ((observed ∪ Finset.Icc 1 sectors).sort (· ≤ ·)).map fun k =>
    (k, if k ∈ observed then
          statOf ((binned.filter fun p => decide (p.2 = k)).map Prod.fst)
        else 0)

/-- `dist_by_dir_sector` with `aggregation_method='%frequency'`: each
sector's row count over `len(data)`, times 100. -/
def dist_by_dir_sector_freq (rows : List (ℚ × ℚ)) (sectors : ℕ)
    (bins : List ℚ) : List (ℕ × ℚ) :=
  dist_by_dir_sector_core rows sectors bins
    (fun vals => (vals.length : ℚ) / rows.length * 100)

/-- The labeled `%frequency` result `dist_by_dir_sector` returns with the
default zero-centred sectors: the reconciled per-sector values with the
synthesized direction labels attached positionally. -/
def dist_by_dir_sector_result (rows : List (ℚ × ℚ)) (sectors : ℕ) :
    Except String (List (String × ℚ)) :=
  set_index (get_direction_bin_labels sectors (get_direction_bin_array sectors) true)
    (dist_by_dir_sector_freq rows sectors (get_direction_bin_array sectors))

/-- The aligned, binned dataset of `dist_matrix`: rows are
`(var, y, x)` triples; `pd.concat(...).dropna()` keeps exactly the rows whose
`y` and `x` both fall inside their edge lists, leaving a `(y-bin, x-bin)`
key pair per surviving row. -/
def dm_paired (rows : List (ℚ × ℚ × ℚ)) (ybins xbins : List ℚ) :
    List (ℕ × ℕ) :=
  rows.filterMap fun r =>
    (linear_cut ybins r.2.1).bind fun i =>
      (linear_cut xbins r.2.2).map fun j => (i, j)

/-- One cell of the `%frequency` matrix of `dist_matrix`:
`counts / counts.sum().sum() * 100`, the cell's row count over the grand
total of the whole grid. -/
def dm_freq_cell (rows : List (ℚ × ℚ × ℚ)) (ybins xbins : List ℚ)
    (i j : ℕ) : ℚ :=
  (((dm_paired rows ybins xbins).countP fun p => decide (p = (i, j))) : ℚ) /
    (dm_paired rows ybins xbins).length * 100

/-- The aligned, binned dataset of `_get_dist_matrix_by_dir_sector`: rows are
`(var, var_to_bin, direction)` triples; `dropna()` keeps the rows whose
`var_to_bin` value falls inside the edge list (directions always bin to an
integer), leaving a `(variable-bin, sector)` key pair per surviving row. -/
def fm_paired (rows : List (ℚ × ℚ × ℚ)) (varbins dbins : List ℚ)
    (sectors : ℕ) : List (ℕ × ℕ) :=
  rows.filterMap fun r =>
    (linear_cut varbins r.2.1).map fun i =>
      (i, map_direction_bin r.2.2 dbins sectors)

/-- The column set of the direction-sector matrix: the observed sector ids
together with the inserted columns `1..S` (`distribution.insert(i-1, i, nan)`
for each missing sector). -/
def fm_cols (rows : List (ℚ × ℚ × ℚ)) (varbins dbins : List ℚ)
    (sectors : ℕ) : Finset ℕ :=
  ((fm_paired rows varbins dbins sectors).map Prod.snd).toFinset ∪
    Finset.Icc 1 sectors

/-- One cell of the `%frequency` direction-sector matrix as `freq_table`
returns it (after its `.replace(np.nan, 0.0)`): the cell's row count over the
grand total of the whole grid, times 100. -/
def fm_freq_cell (rows : List (ℚ × ℚ × ℚ)) (varbins dbins : List ℚ)
    (sectors : ℕ) (i s : ℕ) : ℚ :=
  (((fm_paired rows varbins dbins sectors).countP fun p =>
    decide (p = (i, s))) : ℚ) /
    (fm_paired rows varbins dbins sectors).length * 100

/-- Statistical mode of a list: the value occurring most often (the earliest
such value on ties). -/
def modeOf (l : List ℚ) : ℚ :=
  l.foldl (fun best x => if l.count best < l.count x then x else best)
    (l.headD 0)

/-- Modelled from the spec: `tf._get_data_resolution(indexes)`, which
`analyse.py` imports from outside the sources under review — the statistical
mode of the deltas between consecutive timestamps.  Timestamps are rationals
measured in days, so a delta already is the `pd.Timedelta('1 days')` quotient
the source computes. -/
def get_data_resolution (idx : List ℚ) : ℚ :=
  modeOf ((List.zip idx.dropLast (idx.drop 1)).map fun p => p.2 - p.1)

/-- Embedding of `time_continuity_gaps(data)` from `analyse.py` on a cleaned
index of timestamps (in days): pair consecutive timestamps, keep the pairs
whose delta differs from the resolution, shift the start forward and the end
back by one resolution, recompute the days lost, and report a resolution
where the adjusted days lost is exactly zero (`filtered.replace(0, ...)`;
the timestamp columns are datetimes, which pandas `replace(0, ...)` never
matches). -/
def time_continuity_gaps (idx : List ℚ) : List (ℚ × ℚ × ℚ) :=
  let res := get_data_resolution idx
  let continuity := (List.zip idx.dropLast (idx.drop 1)).map fun p =>
    (p.1, p.2, p.2 - p.1)
  let filtered := continuity.filter fun t => decide (¬t.2.2 = res)
  let adjusted := filtered.map fun t =>
    (t.1 + res, t.2.1 - res, (t.2.1 - res) - (t.1 + res))
  adjusted.map fun t => (t.1, t.2.1, if t.2.2 = 0 then res else t.2.2)

/-- A regular index: `n` timestamps `0, r, 2r, …` at resolution `r` days. -/
def regular_index (n : ℕ) (r : ℚ) : List ℚ :=
  (List.range n).map fun i : ℕ => (i : ℚ) * r

/-- Remove from an index every timestamp inside the closed window
`[lo, hi]`. -/
def remove_window (idx : List ℚ) (lo hi : ℚ) : List ℚ :=
  idx.filter fun t => decide (¬(lo ≤ t ∧ t ≤ hi))

/-- Default gradient bins of `freq_table`'s rose plot. -/
def default_plot_bins : List ℚ := [0, 3, 6, 9, 12, 15, 41]

/-- Default gradient labels of `freq_table`'s rose plot. -/
def default_plot_labels : List String :=
  ["0-3 m/s", "4-6 m/s", "7-9 m/s", "10-12 m/s", "13-15 m/s", "15+ m/s"]

/-- The `(plot_bins, plot_labels)` pair `freq_table` actually hands to the
rose plot: defaults fill in only a `None`, and a caller-supplied label list
is kept as-is even when its length does not match the bins. -/
def freq_table_plot_params (plot_bins : Option (List ℚ))
    (plot_labels : Option (List String)) : List ℚ × Option (List String) :=
  match plot_bins with
  | none =>
    (default_plot_bins,
      match plot_labels with
      | none => some default_plot_labels
      | some ls => some ls)
  | some bs => (bs, plot_labels)

/-- Whether `freq_table` emits its `"Number of plot_labels is not equal to
number of plot_bins. Using default plot_labels"` warning: only when
`plot_bins` is left to its default and the supplied labels mismatch it. -/
def freq_table_warns (plot_bins : Option (List ℚ))
    (plot_labels : Option (List String)) : Bool :=
  match plot_bins, plot_labels with
  | none, some ls => ls.length + 1 ≠ default_plot_bins.length
  | _, _ => false

/-- Number of occurrences of `a` in `l`, phrased with `decide` so that it
lines up syntactically with the `countP` calls of the embedding. -/
def countEq {α : Type} [DecidableEq α] (l : List α) (a : α) : ℕ :=
  l.countP fun x => decide (x = a)

/-- Embedding of `Series.dropna()`: drop the missing values, keeping the
timestamps of the present ones. -/
def dropna (s : List (ℕ × Option ℚ)) : List (ℕ × ℚ) :=
  s.filterMap fun p => p.2.map fun v => (p.1, v)

/-- Embedding of `pd.concat([a, b], axis=1, join='inner')` for series with
unique timestamps: keep the timestamps present in both, pairing the values. -/
def innerJoin (a b : List (ℕ × ℚ)) : List (ℕ × ℚ × ℚ) :=
  a.filterMap fun p => (b.lookup p.1).map fun y => (p.1, p.2, y)

/-- Embedding of `TI.calc(wspd, wspd_std)` from `analyse.py`: drop missing
values from each series, keep the wind speeds strictly above 3, inner-join
with the cleaned standard deviations, and return `wspd_std / wspd`. -/
def TI_calc (wspd wspd_std : List (ℕ × Option ℚ)) : List (ℕ × ℚ) :=
  let fast := (dropna wspd).filter fun p => decide (3 < p.2)
  (innerJoin fast (dropna wspd_std)).map fun r => (r.1, r.2.2 / r.2.1)

end Brightwind

namespace Brightwind

/-! ### Generic evaluation and counting helpers -/

theorem arange1_eval (start stop : ℚ) (n : ℕ) (h : ⌈stop - start⌉ = (n : ℤ)) :
    arange1 start stop = (List.range n).map fun i : ℕ => start + (i : ℚ) := by
  unfold arange1
  rw [h, Int.toNat_ofNat]

theorem sum_countEq {α : Type} [DecidableEq α] (l : List α) (s : Finset α)
    (h : ∀ a ∈ l, a ∈ s) : (∑ a in s, countEq l a) = l.length := by
  induction l with
  | nil => simp [countEq]
  | cons x rest ih =>
    have hx : x ∈ s := h x (List.mem_cons_self x rest)
    have hrest : ∀ a ∈ rest, a ∈ s := fun a ha => h a (List.mem_cons_of_mem _ ha)
    have hstep : ∀ a, countEq (x :: rest) a =
        countEq rest a + if x = a then 1 else 0 := by
      intro a
      simp [countEq, List.countP_cons]
    rw [Finset.sum_congr rfl fun a _ => hstep a, Finset.sum_add_distrib,
      ih hrest, Finset.sum_ite_eq s x fun _ => 1, if_pos hx, List.length_cons]

theorem countEq_eq_zero {α : Type} [DecidableEq α] {l : List α} {a : α}
    (h : a ∉ l) : countEq l a = 0 := by
  rw [countEq, List.countP_eq_zero]
  intro b hb
  simp only [decide_eq_true_eq]
  exact fun hba => h (hba ▸ hb)

/-! ### Series, joins and lookups (claim C10) -/

theorem mem_dropna {s : List (ℕ × Option ℚ)} {t : ℕ} {v : ℚ} :
    (t, v) ∈ dropna s ↔ (t, some v) ∈ s := by
  constructor
  · intro h
    obtain ⟨p, hmem, heq⟩ := List.mem_filterMap.mp h
    obtain ⟨t1, o⟩ := p
    cases o with
    | none => simp at heq
    | some y =>
      simp only [Option.map_some', Option.some.injEq, Prod.mk.injEq] at heq
      obtain ⟨rfl, rfl⟩ := heq
      exact hmem
  · intro hmem
    exact List.mem_filterMap.mpr ⟨(t, some v), hmem, rfl⟩

theorem dropna_keys_sublist (s : List (ℕ × Option ℚ)) :
    ((dropna s).map Prod.fst).Sublist (s.map Prod.fst) := by
  induction s with
  | nil => simp [dropna]
  | cons p rest ih =>
    obtain ⟨t1, o⟩ := p
    cases o with
    | none =>
      simp only [dropna, List.filterMap_cons, Option.map_none', List.map_cons] at *
      exact ih.cons t1
    | some y =>
      simp only [dropna, List.filterMap_cons, Option.map_some', List.map_cons] at *
      exact ih.cons₂ t1

theorem lookup_of_mem_of_nodup {l : List (ℕ × ℚ)} {t : ℕ} {v : ℚ}
    (h : (l.map Prod.fst).Nodup) (hm : (t, v) ∈ l) : l.lookup t = some v := by
  induction l with
  | nil => simp at hm
  | cons p rest ih =>
    obtain ⟨t1, v1⟩ := p
    simp only [List.map_cons, List.nodup_cons] at h
    rcases List.mem_cons.mp hm with heq | hrest
    · obtain ⟨rfl, rfl⟩ := Prod.mk.injEq .. |>.mp heq.symm |>.imp Eq.symm Eq.symm
      simp
    · have hne : (t == t1) = false := by
        refine beq_eq_false_iff_ne.mpr fun he => h.1 ?_
        exact he ▸ List.mem_map_of_mem Prod.fst hrest
      rw [List.lookup_cons, hne]
      exact ih h.2 hrest

theorem mem_of_lookup {l : List (ℕ × ℚ)} {t : ℕ} {v : ℚ}
    (h : l.lookup t = some v) : (t, v) ∈ l := by
  induction l with
  | nil => simp [List.lookup] at h
  | cons p rest ih =>
    obtain ⟨t1, v1⟩ := p
    rw [List.lookup_cons] at h
    by_cases he : t = t1
    · rw [he, beq_self_eq_true] at h
      simp only at h
      cases h
      exact he ▸ List.mem_cons_self _ _
    · rw [beq_eq_false_iff_ne.mpr he] at h
      exact List.mem_cons_of_mem _ (ih h)

theorem nodup_keys_unique {α β : Type} {l : List (α × β)}
    (h : (l.map Prod.fst).Nodup) {t : α} {a b : β}
    (ha : (t, a) ∈ l) (hb : (t, b) ∈ l) : a = b := by
  induction l with
  | nil => simp at ha
  | cons p rest ih =>
    simp only [List.map_cons, List.nodup_cons] at h
    rcases List.mem_cons.mp ha with hpa | hra
    · rcases List.mem_cons.mp hb with hpb | hrb
      · rw [← hpa, Prod.mk.injEq] at hpb
        exact hpb.2.symm
      · refine absurd (List.mem_map_of_mem Prod.fst hrb) ?_
        subst hpa
        exact h.1
    · rcases List.mem_cons.mp hb with hpb | hrb
      · refine absurd (List.mem_map_of_mem Prod.fst hra) ?_
        subst hpb
        exact h.1
      · exact ih h.2 hra hrb

/-- Claim C10: `TI.calc` drops missing values from each series, inner-joins
the two on timestamp, and returns `wspd_std / wspd` exactly for the samples
whose wind speed is strictly greater than 3; a sample whose wind speed is at
or below 3 produces no turbulence-intensity entry. -/
theorem c10_TI_calc (wspd wspd_std : List (ℕ × Option ℚ))
    (hw : (wspd.map Prod.fst).Nodup) (hs : (wspd_std.map Prod.fst).Nodup) :
    (∀ p ∈ TI_calc wspd wspd_std, ∃ w sd, (p.1, some w) ∈ wspd ∧
        (p.1, some sd) ∈ wspd_std ∧ 3 < w ∧ p.2 = sd / w) ∧
    (∀ t w sd, (t, some w) ∈ wspd → (t, some sd) ∈ wspd_std → 3 < w →
        (t, sd / w) ∈ TI_calc wspd wspd_std) ∧
    (∀ t w, (t, some w) ∈ wspd → w ≤ 3 →
        ∀ v, (t, v) ∉ TI_calc wspd wspd_std) := by
  refine ⟨?_, ?_, ?_⟩
  · intro p hp
    obtain ⟨r, hr, rfl⟩ := List.mem_map.mp hp
    obtain ⟨q, hq, heq⟩ := List.mem_filterMap.mp hr
    obtain ⟨hq1, hq2⟩ := List.mem_filter.mp hq
    have hq3 : (3 : ℚ) < q.2 := by simpa using hq2
    cases hlk : List.lookup q.1 (dropna wspd_std) with
    | none => rw [hlk] at heq; simp at heq
    | some y =>
      rw [hlk] at heq
      simp only [Option.map_some', Option.some.injEq] at heq
      subst heq
      refine ⟨q.2, y, mem_dropna.mp ?_, mem_dropna.mp (mem_of_lookup hlk), hq3, rfl⟩
      simpa using hq1
  · intro t w sd hwm hsm h3
    have hfast : (t, w) ∈ (dropna wspd).filter fun p => decide (3 < p.2) :=
      List.mem_filter.mpr ⟨mem_dropna.mpr hwm, by simpa using h3⟩
    have hlk : (dropna wspd_std).lookup t = some sd :=
      lookup_of_mem_of_nodup ((dropna_keys_sublist wspd_std).nodup hs)
        (mem_dropna.mpr hsm)
    refine List.mem_map.mpr ⟨(t, w, sd), ?_, rfl⟩
    exact List.mem_filterMap.mpr ⟨(t, w), hfast, by rw [hlk]; rfl⟩
  · intro t w hwm h3 v hv
    obtain ⟨r, hr, heq⟩ := List.mem_map.mp hv
    obtain ⟨q, hq, heq2⟩ := List.mem_filterMap.mp hr
    obtain ⟨hq1, hq2⟩ := List.mem_filter.mp hq
    have hq3 : (3 : ℚ) < q.2 := by simpa using hq2
    have hqt : q.1 = t := by
      cases hlk : List.lookup q.1 (dropna wspd_std) with
      | none => rw [hlk] at heq2; simp at heq2
      | some y =>
        rw [hlk] at heq2
        simp only [Option.map_some', Option.some.injEq] at heq2
        rw [← heq2] at heq
        simpa using congrArg Prod.fst heq
    have hmem : (t, some q.2) ∈ wspd := by
      rw [← hqt]
      exact mem_dropna.mp (by simpa using hq1)
    have : some w = some q.2 := nodup_keys_unique hw hwm hmem
    rw [Option.some.injEq] at this
    exact absurd (this ▸ h3) (not_le.mpr hq3)

/-- Concrete instantiation of `c10_TI_calc`. -/
theorem c10_TI_calc_witness :
    (0, (1 : ℚ) / 4) ∈ TI_calc [(0, some 4), (1, some 2), (2, none)]
      [(0, some 1), (1, some 1)] :=
  (c10_TI_calc [(0, some 4), (1, some 2), (2, none)] [(0, some 1), (1, some 1)]
      (by decide) (by decide)).2.1 0 4 1 (by norm_num) (by norm_num) (by norm_num)

/-! ### Bin reconciliation of dist_by_dir_sector (claim C6) -/

theorem dbds_core_keys (rows : List (ℚ × ℚ)) (sectors : ℕ) (bins : List ℚ)
    (statOf : List ℚ → ℚ) :
    (dist_by_dir_sector_core rows sectors bins statOf).map Prod.fst =
      ((((direction_binned rows bins sectors).map Prod.snd).toFinset ∪
        Finset.Icc 1 sectors).sort (· ≤ ·)) := by
  unfold dist_by_dir_sector_core
  rw [List.map_map]
  exact List.map_id _

/-- Claim C6: after reconciliation the (pre-label) result of
`dist_by_dir_sector` has an entry for every sector id `1..S`, a sector with
no observations holds the fill value `0.0`, and the entries are sorted by
ascending sector id before the display labels are attached. -/
theorem c6_dbds_reconciliation (rows : List (ℚ × ℚ)) (sectors : ℕ)
    (bins : List ℚ) (statOf : List ℚ → ℚ) :
    (∀ s, 1 ≤ s → s ≤ sectors →
        s ∈ (dist_by_dir_sector_core rows sectors bins statOf).map Prod.fst) ∧
    ((dist_by_dir_sector_core rows sectors bins statOf).map Prod.fst).Sorted
      (· ≤ ·) ∧
    (∀ s, 1 ≤ s → s ≤ sectors →
        (∀ p ∈ direction_binned rows bins sectors, p.2 ≠ s) →
        (s, (0 : ℚ)) ∈ dist_by_dir_sector_core rows sectors bins statOf) := by
  refine ⟨?_, ?_, ?_⟩
  · intro s h1 h2
    rw [dbds_core_keys]
    exact (Finset.mem_sort _).mpr
      (Finset.mem_union_right _ (Finset.mem_Icc.mpr ⟨h1, h2⟩))
  · rw [dbds_core_keys]
    exact Finset.sort_sorted _ _
  · intro s h1 h2 hempty
    have hobs : s ∉ ((direction_binned rows bins sectors).map Prod.snd).toFinset := by
      rw [List.mem_toFinset, List.mem_map]
      rintro ⟨p, hp, rfl⟩
      exact hempty p hp rfl
    have hmem : s ∈ (((direction_binned rows bins sectors).map Prod.snd).toFinset ∪
        Finset.Icc 1 sectors).sort (· ≤ ·) :=
      (Finset.mem_sort _).mpr
        (Finset.mem_union_right _ (Finset.mem_Icc.mpr ⟨h1, h2⟩))
    unfold dist_by_dir_sector_core
    refine List.mem_map.mpr ⟨s, hmem, ?_⟩
    rw [if_neg hobs]

/-- Concrete instantiation of `c6_dbds_reconciliation`. -/
theorem c6_dbds_reconciliation_witness :
    (2, (0 : ℚ)) ∈ dist_by_dir_sector_core [((100 : ℚ), (5 : ℚ))] 12
      (get_direction_bin_array 12) (fun vals => (vals.length : ℚ)) := by
  refine (c6_dbds_reconciliation [((100 : ℚ), (5 : ℚ))] 12
      (get_direction_bin_array 12) (fun vals => (vals.length : ℚ))).2.2
    2 (by norm_num) (by norm_num) ?_
  intro p hp
  have : p = ((100 : ℚ), map_direction_bin 5 (get_direction_bin_array 12) 12) := by
    simpa [direction_binned] using hp
  rw [this]
  norm_num [map_direction_bin, digitize, listMax, get_direction_bin_array,
    List.range_succ, List.countP_cons]

/-! ### Summation helpers for the frequency claims (C2, C3) -/

theorem sum_map_sort (s : Finset ℕ) (f : ℕ → ℚ) :
    ((s.sort (· ≤ ·)).map f).sum = ∑ a in s, f a := by
  rw [← Multiset.sum_coe, ← Multiset.map_coe, Finset.sort_eq]
  rfl

theorem sum_map_list_range (n : ℕ) (f : ℕ → ℚ) :
    ((List.range n).map f).sum = ∑ i in Finset.range n, f i := by
  rw [← Multiset.sum_coe, ← Multiset.map_coe, Multiset.coe_range]
  rfl

theorem dbds_core_values (rows : List (ℚ × ℚ)) (sectors : ℕ) (bins : List ℚ)
    (statOf : List ℚ → ℚ) :
    (dist_by_dir_sector_core rows sectors bins statOf).map Prod.snd =
      ((((direction_binned rows bins sectors).map Prod.snd).toFinset ∪
          Finset.Icc 1 sectors).sort (· ≤ ·)).map
        (fun k =>
          if k ∈ ((direction_binned rows bins sectors).map Prod.snd).toFinset
          then statOf (((direction_binned rows bins sectors).filter fun p =>
            decide (p.2 = k)).map Prod.fst)
          else 0) := by
  unfold dist_by_dir_sector_core
  rw [List.map_map]
  rfl

theorem dbds_freq_value (rows : List (ℚ × ℚ)) (sectors : ℕ) (bins : List ℚ)
    (k : ℕ) :
    (if k ∈ ((direction_binned rows bins sectors).map Prod.snd).toFinset then
        ((((direction_binned rows bins sectors).filter fun p =>
          decide (p.2 = k)).map Prod.fst).length : ℚ) / rows.length * 100
      else 0) =
      (countEq ((direction_binned rows bins sectors).map Prod.snd) k : ℚ) *
        (100 / rows.length) := by
  by_cases hobs : k ∈ ((direction_binned rows bins sectors).map Prod.snd).toFinset
  · rw [if_pos hobs, List.length_map, ← List.countP_eq_length_filter, countEq,
      List.countP_map]
    simp only [Function.comp_def]
    ring
  · rw [if_neg hobs,
      countEq_eq_zero (fun hx => hobs (List.mem_toFinset.mpr hx)),
      Nat.cast_zero, zero_mul]

/-- Claim C2 (amended): `%frequency` sums to 100 for every non-empty aligned
dataset in `dist_by_dir_sector` unconditionally, and in `dist` provided every
row's binned value falls inside the declared bin edges; a `dist` row whose
value falls outside the edges is dropped from the per-bin counts but still
counted in the `len(data)` denominator, so the sum then falls short of 100
(see the counterexample). -/
theorem c2_freq_sums (rows : List (ℚ × ℚ)) (bins : List ℚ) (sectors : ℕ)
    (dbins : List ℚ) (hne : rows ≠ []) :
    ((∀ p ∈ rows, linear_cut bins p.2 ≠ none) →
      ((dist_freq rows bins).map Prod.snd).sum = 100) ∧
    ((dist_by_dir_sector_freq rows sectors dbins).map Prod.snd).sum = 100 := by
  have hlen0 : rows.length ≠ 0 := fun h => hne (List.length_eq_zero.mp h)
  have hlen : ((rows.length : ℚ)) ≠ 0 := Nat.cast_ne_zero.mpr hlen0
  constructor
  · intro hin
    set B := bins.length - 1 with hB
    set mapped := rows.map fun p => linear_cut bins p.2 with hmapped
    have hcnt : ∀ i : ℕ,
        (rows.countP fun p => decide (linear_cut bins p.2 = some i)) =
          countEq mapped (some i) := by
      intro i
      rw [hmapped, countEq, List.countP_map]
      rfl
    have hmem : ∀ o ∈ mapped, o ∈ (Finset.range B).image some := by
      intro o ho
      obtain ⟨p, hp, rfl⟩ := List.mem_map.mp ho
      cases hcut : linear_cut bins p.2 with
      | none => exact absurd hcut (hin p hp)
      | some j =>
        refine Finset.mem_image.mpr ⟨j, Finset.mem_range.mpr ?_, rfl⟩
        simp only [linear_cut] at hcut
        split_ifs at hcut with hcond
        rw [Option.some.injEq] at hcut
        omega
    have hinj : ∀ x ∈ Finset.range B, ∀ y ∈ Finset.range B,
        (some x : Option ℕ) = some y → x = y :=
      fun x _ y _ h => Option.some_injective _ h
    have hsum : (∑ i in Finset.range B, countEq mapped (some i)) = rows.length := by
      have h1 : ∑ o in (Finset.range B).image some, countEq mapped o =
          ∑ i in Finset.range B, countEq mapped (some i) := Finset.sum_image hinj
      rw [← h1, sum_countEq mapped _ hmem, hmapped, List.length_map]
    unfold dist_freq
    rw [List.map_map]
    have hpt : ((List.range B).map
        (Prod.snd ∘ fun i =>
          (i, ((rows.countP fun p => decide (linear_cut bins p.2 = some i)) : ℚ) /
            rows.length * 100))).sum =
        ((List.range B).map fun i =>
          ((countEq mapped (some i) : ℚ)) * (100 / rows.length)).sum := by
      refine congrArg List.sum (List.map_congr_left fun i _ => ?_)
      rw [Function.comp_apply, hcnt i]
      ring
    rw [hpt, sum_map_list_range, ← Finset.sum_mul, ← Nat.cast_sum, hsum,
      mul_comm, div_mul_cancel₀ _ hlen]
  · rw [dist_by_dir_sector_freq, dbds_core_values, sum_map_sort]
    rw [Finset.sum_congr rfl fun k _ => dbds_freq_value rows sectors dbins k]
    rw [← Finset.sum_mul, ← Nat.cast_sum]
    rw [sum_countEq _ _ fun a ha => Finset.mem_union_left _
      (List.mem_toFinset.mpr ha)]
    rw [List.length_map, direction_binned, List.length_map, mul_comm,
      div_mul_cancel₀ _ hlen]

/-- Concrete instantiation of `c2_freq_sums`. -/
theorem c2_freq_sums_witness :
    ((dist_by_dir_sector_freq [((100 : ℚ), (5 : ℚ))] 12
      (get_direction_bin_array 12)).map Prod.snd).sum = 100 :=
  (c2_freq_sums [((100 : ℚ), (5 : ℚ))] [0, 1] 12 (get_direction_bin_array 12)
    (by simp)).2

/-- Counterexample to claim C2 as stated: for the aligned dataset with values
`0` and `3` and the default `dist` bins (edges `[-0.5, 0.5, 1.5, 2.5]`, which
exclude the maximum value `3`), the `%frequency` values of `dist` sum to `50`,
not `100`. -/
theorem c2_counterexample :
    ((dist_freq [((0 : ℚ), (0 : ℚ)), (3, 3)] (dist_default_bins 0 3)).map
      Prod.snd).sum = 50 ∧ (50 : ℚ) ≠ 100 := by
  constructor
  · rw [show dist_default_bins 0 3 = [-(1/2 : ℚ), 1/2, 3/2, 5/2] from by
      rw [dist_default_bins, show pyround ((0:ℚ) - 1/2) = 0 by norm_num [pyround],
        arange1_eval _ _ 4 (by norm_num)]
      norm_num [List.range_succ]]
    norm_num [dist_freq, linear_cut, List.range_succ, List.countP_cons]
  · norm_num

/-! ### Grand-total normalisation of the 2-D matrices (claim C3) -/

theorem linear_cut_lt {bins : List ℚ} {v : ℚ} {j : ℕ}
    (h : linear_cut bins v = some j) : j < bins.length - 1 := by
  simp only [linear_cut] at h
  split_ifs at h with hc
  rw [Option.some.injEq] at h
  omega

theorem mem_dm_paired {rows : List (ℚ × ℚ × ℚ)} {ybins xbins : List ℚ}
    {p : ℕ × ℕ} (h : p ∈ dm_paired rows ybins xbins) :
    p.1 < ybins.length - 1 ∧ p.2 < xbins.length - 1 := by
  obtain ⟨r, _, heq⟩ := List.mem_filterMap.mp h
  cases hy : linear_cut ybins r.2.1 with
  | none => rw [hy] at heq; simp at heq
  | some i =>
    cases hx : linear_cut xbins r.2.2 with
    | none => rw [hy, hx] at heq; simp at heq
    | some j =>
      rw [hy, hx] at heq
      simp only [Option.some_bind, Option.map_some', Option.some.injEq] at heq
      rw [← heq]
      exact ⟨linear_cut_lt hy, linear_cut_lt hx⟩

theorem mem_fm_paired {rows : List (ℚ × ℚ × ℚ)} {varbins dbins : List ℚ}
    {sectors : ℕ} {p : ℕ × ℕ} (h : p ∈ fm_paired rows varbins dbins sectors) :
    p.1 < varbins.length - 1 ∧
      p.2 ∈ ((fm_paired rows varbins dbins sectors).map Prod.snd).toFinset := by
  refine ⟨?_, List.mem_toFinset.mpr (List.mem_map_of_mem Prod.snd h)⟩
  obtain ⟨r, _, heq⟩ := List.mem_filterMap.mp h
  cases hv : linear_cut varbins r.2.1 with
  | none => rw [hv] at heq; simp at heq
  | some i =>
    rw [hv] at heq
    simp only [Option.map_some', Option.some.injEq] at heq
    rw [← heq]
    exact linear_cut_lt hv

theorem grid_sum_100 {α : Type} [DecidableEq α] (l : List α) (s : Finset α)
    (hne : l ≠ []) (hmem : ∀ a ∈ l, a ∈ s) :
    (∑ a in s, ((countEq l a : ℚ) / l.length * 100)) = 100 := by
  have hlen : ((l.length : ℚ)) ≠ 0 :=
    Nat.cast_ne_zero.mpr fun h => hne (List.length_eq_zero.mp h)
  have hpt : ∀ a ∈ s, ((countEq l a : ℚ) / l.length * 100) =
      (countEq l a : ℚ) * (100 / l.length) := fun a _ => by ring
  rw [Finset.sum_congr rfl hpt, ← Finset.sum_mul, ← Nat.cast_sum,
    sum_countEq l s hmem, mul_comm, div_mul_cancel₀ _ hlen]

/-- Claim C3: both 2-D `%frequency` matrices (`dist_matrix` and the
direction-sector matrix behind `freq_table`) divide each cell count by the
grand total over the whole grid, so for every non-empty aligned dataset the
entries of the full matrix sum to 100.0 — not 100.0 per row or column. -/
theorem c3_matrix_grand_total (rows rows2 : List (ℚ × ℚ × ℚ))
    (ybins xbins varbins dbins : List ℚ) (sectors : ℕ)
    (hne : dm_paired rows ybins xbins ≠ [])
    (hne2 : fm_paired rows2 varbins dbins sectors ≠ []) :
    (∑ i in Finset.range (ybins.length - 1),
      ∑ j in Finset.range (xbins.length - 1),
        dm_freq_cell rows ybins xbins i j) = 100 ∧
    (∑ i in Finset.range (varbins.length - 1),
      ∑ k in fm_cols rows2 varbins dbins sectors,
        fm_freq_cell rows2 varbins dbins sectors i k) = 100 := by
  constructor
  · rw [← Finset.sum_product']
    have := grid_sum_100 (dm_paired rows ybins xbins)
      ((Finset.range (ybins.length - 1)) ×ˢ (Finset.range (xbins.length - 1)))
      hne (fun a ha => Finset.mem_product.mpr
        ⟨Finset.mem_range.mpr (mem_dm_paired ha).1,
         Finset.mem_range.mpr (mem_dm_paired ha).2⟩)
    rw [← this]
    rfl
  · rw [← Finset.sum_product']
    have := grid_sum_100 (fm_paired rows2 varbins dbins sectors)
      ((Finset.range (varbins.length - 1)) ×ˢ fm_cols rows2 varbins dbins sectors)
      hne2 (fun a ha => Finset.mem_product.mpr
        ⟨Finset.mem_range.mpr (mem_fm_paired ha).1,
         Finset.mem_union_left _ (mem_fm_paired ha).2⟩)
    rw [← this]
    rfl

/-- Concrete instantiation of `c3_matrix_grand_total`. -/
theorem c3_matrix_grand_total_witness :
    (∑ i in Finset.range 1, ∑ j in Finset.range 1,
      dm_freq_cell [((1 : ℚ), (0 : ℚ), (0 : ℚ))] [0, 1] [0, 1] i j) = 100 := by
  have h := (c3_matrix_grand_total [((1 : ℚ), (0 : ℚ), (0 : ℚ))]
    [((1 : ℚ), (0 : ℚ), (5 : ℚ))] [0, 1] [0, 1] [0, 1]
    (get_direction_bin_array 12) 12
    (by norm_num [dm_paired, linear_cut, List.countP_cons]; simp)
    (by norm_num [fm_paired, linear_cut, List.countP_cons]; simp)).1
  simpa using h

/-! ### Directional binning totality and wrap-around (claims C1, C4) -/

theorem le_listMax {l : List ℚ} {a : ℚ} (h : a ∈ l) : a ≤ listMax l := by
  cases l with
  | nil => simp at h
  | cons x xs =>
    rw [listMax]
    have key : ∀ (t : List ℚ) (init : ℚ), init ≤ t.foldl max init ∧
        ∀ b ∈ t, b ≤ t.foldl max init := by
      intro t
      induction t with
      | nil => exact fun init => ⟨le_refl _, by simp⟩
      | cons y ys ih =>
        intro init
        refine ⟨le_trans (le_max_left init y) (ih (max init y)).1, ?_⟩
        intro b hb
        rcases List.mem_cons.mp hb with rfl | hbs
        · exact le_trans (le_max_right init b) (ih (max init b)).1
        · exact (ih (max init y)).2 b hbs
    rcases List.mem_cons.mp h with rfl | hxs
    · exact (key xs a).1
    · exact (key xs x).2 a hxs

theorem listMax_mem {l : List ℚ} (h : l ≠ []) : listMax l ∈ l := by
  cases l with
  | nil => exact absurd rfl h
  | cons x xs =>
    rw [listMax]
    clear h
    induction xs generalizing x with
    | nil => simp
    | cons y ys ih =>
      rw [List.foldl_cons]
      rcases max_choice x y with hxy | hxy
      · rw [hxy]
        rcases List.mem_cons.mp (ih x) with h1 | h1
        · rw [h1]
          exact List.mem_cons_self _ _
        · exact List.mem_cons_of_mem _ (List.mem_cons_of_mem _ h1)
      · rw [hxy]
        rcases List.mem_cons.mp (ih y) with h1 | h1
        · rw [h1]
          exact List.mem_cons_of_mem _ (List.mem_cons_self _ _)
        · exact List.mem_cons_of_mem _ (List.mem_cons_of_mem _ h1)

theorem gdba_edge_le {S : ℕ} (hS : 1 ≤ S) {i j : ℕ} (hij : i ≤ j) :
    -(180 : ℚ)/S + (i : ℚ) * (360/S) ≤ -(180 : ℚ)/S + (j : ℚ) * (360/S) := by
  have hSpos : (0 : ℚ) < S := by
    exact_mod_cast Nat.pos_of_ne_zero (by omega)
  have hstep : (0 : ℚ) ≤ 360/S := le_of_lt (by positivity)
  exact add_le_add_left
    (mul_le_mul_of_nonneg_right (by exact_mod_cast hij) hstep) _

theorem gdba_edge_lt {S : ℕ} (hS : 1 ≤ S) {i j : ℕ} (hij : i < j) :
    -(180 : ℚ)/S + (i : ℚ) * (360/S) < -(180 : ℚ)/S + (j : ℚ) * (360/S) := by
  have hSpos : (0 : ℚ) < S := by
    exact_mod_cast Nat.pos_of_ne_zero (by omega)
  have hstep : (0 : ℚ) < 360/S := by positivity
  exact add_lt_add_left
    (mul_lt_mul_of_pos_right (by exact_mod_cast hij) hstep) _

theorem gdba_last (S : ℕ) (hS : 1 ≤ S) :
    -(180 : ℚ)/S + ((S + 1 : ℕ) : ℚ) * (360/S) = 360 + 180/S := by
  have hS0 : ((S : ℚ)) ≠ 0 := Nat.cast_ne_zero.mpr (by omega)
  push_cast
  field_simp
  ring

theorem gdba_length (S : ℕ) : (get_direction_bin_array S).length = S + 2 := by
  rw [get_direction_bin_array, List.length_map, List.length_range]

theorem gdba_ne_nil (S : ℕ) : get_direction_bin_array S ≠ [] := by
  intro hcon
  have := gdba_length S
  rw [hcon] at this
  simp at this

theorem gdba_mem_iff {S : ℕ} {a : ℚ} : a ∈ get_direction_bin_array S ↔
    ∃ i : ℕ, i < S + 2 ∧ -(180 : ℚ)/S + (i : ℚ) * (360/S) = a := by
  constructor
  · intro h
    rw [get_direction_bin_array] at h
    obtain ⟨i, hi, hei⟩ := List.mem_map.mp h
    exact ⟨i, List.mem_range.mp hi, hei⟩
  · rintro ⟨i, hi, hei⟩
    rw [get_direction_bin_array]
    exact List.mem_map.mpr ⟨i, List.mem_range.mpr hi, hei⟩

theorem map_direction_bin_eq (wdir : ℚ) (bins : List ℚ) (sectors : ℕ) :
    map_direction_bin wdir bins sectors =
      if digitize wdir bins (decide (wdir = listMax bins)) = sectors + 1 then 1
      else digitize wdir bins (decide (wdir = listMax bins)) := rfl

theorem gdba_listMax (S : ℕ) (hS : 1 ≤ S) :
    listMax (get_direction_bin_array S) = 360 + 180/(S : ℚ) := by
  have hmem : (360 + 180/(S : ℚ)) ∈ get_direction_bin_array S :=
    gdba_mem_iff.mpr ⟨S + 1, by omega, gdba_last S hS⟩
  refine le_antisymm ?_ (le_listMax hmem)
  obtain ⟨i, hi, hei⟩ := gdba_mem_iff.mp (listMax_mem (gdba_ne_nil S))
  rw [← hei, ← gdba_last S hS]
  exact gdba_edge_le hS (by omega)

theorem gdba_max_gt (S : ℕ) (hS : 1 ≤ S) :
    (360 : ℚ) < listMax (get_direction_bin_array S) := by
  rw [gdba_listMax S hS]
  have hSpos : (0 : ℚ) < S := by
    exact_mod_cast Nat.pos_of_ne_zero (by omega)
  have : (0 : ℚ) < 180/S := by positivity
  linarith

theorem digitize_le_count (d : ℚ) (bins : List ℚ) (hne : d ≠ listMax bins) :
    digitize d bins (decide (d = listMax bins)) =
      bins.countP fun b => decide (b ≤ d) := by
  rw [decide_eq_false hne]
  rfl

theorem gdba_countP_le_bounds (S : ℕ) (hS : 1 ≤ S) (d : ℚ) (h0 : 0 ≤ d)
    (h1 : d < 360) :
    1 ≤ ((get_direction_bin_array S).countP fun b => decide (b ≤ d)) ∧
      ((get_direction_bin_array S).countP fun b => decide (b ≤ d)) ≤ S + 1 := by
  have hSpos : (0 : ℚ) < S := by
    exact_mod_cast Nat.pos_of_ne_zero (by omega)
  constructor
  · refine List.countP_pos_iff.mpr ⟨-(180 : ℚ)/S, ?_, ?_⟩
    · exact gdba_mem_iff.mpr ⟨0, by omega, by push_cast; ring⟩
    · have hpos : (0 : ℚ) ≤ 180/S := by positivity
      have hnp : -(180 : ℚ)/S ≤ 0 := by
        have heq : -(180 : ℚ)/S = -(180/S) := by ring
        rw [heq]
        linarith
      simpa using le_trans hnp h0
  · have hle := List.countP_le_length
      (p := fun b => decide (b ≤ d)) (l := get_direction_bin_array S)
    rw [gdba_length S] at hle
    rcases Nat.lt_or_ge ((get_direction_bin_array S).countP
      fun b => decide (b ≤ d)) (S + 2) with hlt | hge
    · omega
    · exfalso
      have heq : ((get_direction_bin_array S).countP fun b => decide (b ≤ d)) =
          (get_direction_bin_array S).length := by
        rw [gdba_length S]
        omega
      have hall := List.countP_eq_length.mp heq
      have hmem : (360 + 180/(S : ℚ)) ∈ get_direction_bin_array S :=
        gdba_mem_iff.mpr ⟨S + 1, by omega, gdba_last S hS⟩
      have hcon : (360 + 180/(S : ℚ)) ≤ d := by simpa using hall _ hmem
      have h180 : (0 : ℚ) < 180/S := by positivity
      linarith

/-- Claim C1 (amended): with the default zero-centred edge array every
direction in `[0, 360)` is assigned exactly one sector id in `1..S`; an
insertion index of `S + 1` is wrapped to sector 1; with `S = 12` both 359°
and 1° land in sector 1.  Amendment forced by the counterexample: a value
exactly equal to the maximum edge also receives insertion index `S + 1` and
is therefore wrapped to sector 1 — the zero-centred wrap sector — rather
than being placed in the last sector. -/
theorem c1_direction_bin_total (S : ℕ) (hS : 1 ≤ S) :
    (∀ d : ℚ, 0 ≤ d → d < 360 →
      1 ≤ map_direction_bin d (get_direction_bin_array S) S ∧
        map_direction_bin d (get_direction_bin_array S) S ≤ S) ∧
    (∀ w : ℚ, digitize w (get_direction_bin_array S)
        (decide (w = listMax (get_direction_bin_array S))) = S + 1 →
      map_direction_bin w (get_direction_bin_array S) S = 1) ∧
    map_direction_bin (listMax (get_direction_bin_array S))
      (get_direction_bin_array S) S = 1 ∧
    map_direction_bin 359 (get_direction_bin_array 12) 12 = 1 ∧
    map_direction_bin 1 (get_direction_bin_array 12) 12 = 1 := by
  refine ⟨?_, ?_, ?_, ?_, ?_⟩
  · intro d h0 h1
    have hne : d ≠ listMax (get_direction_bin_array S) := by
      have hgt := gdba_max_gt S hS
      intro he
      rw [← he] at hgt
      linarith
    have hc := gdba_countP_le_bounds S hS d h0 h1
    rw [map_direction_bin_eq, digitize_le_count d _ hne]
    split_ifs with hw
    · exact ⟨le_refl 1, hS⟩
    · exact ⟨hc.1, by omega⟩
  · intro w hw
    rw [map_direction_bin_eq, hw, if_pos rfl]
  · have hSpos : (0 : ℚ) < S := by
      exact_mod_cast Nat.pos_of_ne_zero (by omega)
    rw [map_direction_bin_eq]
    have hd : digitize (listMax (get_direction_bin_array S))
        (get_direction_bin_array S)
        (decide (listMax (get_direction_bin_array S) =
          listMax (get_direction_bin_array S))) =
        (get_direction_bin_array S).countP
          fun b => decide (b < (360 + 180/(S : ℚ))) := by
      rw [decide_eq_true rfl]
      show (get_direction_bin_array S).countP
          (fun b => decide (b < listMax (get_direction_bin_array S))) = _
      rw [gdba_listMax S hS]
    have hcnt : ((get_direction_bin_array S).countP
        fun b => decide (b < (360 + 180/(S : ℚ)))) = S + 1 := by
      rw [get_direction_bin_array, List.countP_map]
      have hcong : ∀ x ∈ List.range (S + 2),
          (((fun b => decide (b < (360 + 180/(S : ℚ)))) ∘
            fun i : ℕ => -(180 : ℚ)/S + (i : ℚ) * (360/S)) x = true ↔
            (fun i : ℕ => decide (i < S + 1)) x = true) := by
        intro x hx
        rw [Function.comp_apply, decide_eq_true_eq, decide_eq_true_eq,
          ← gdba_last S hS]
        constructor
        · intro hlt
          by_contra hcon
          have hxeq : x = S + 1 := by
            have := List.mem_range.mp hx
            omega
          rw [hxeq] at hlt
          exact lt_irrefl _ hlt
        · intro hlt
          exact gdba_edge_lt hS hlt
      rw [List.countP_congr hcong, List.range_succ, List.countP_append]
      have h1 : (List.range (S + 1)).countP (fun i : ℕ => decide (i < S + 1)) =
          (List.range (S + 1)).length :=
        List.countP_eq_length.mpr fun a ha => decide_eq_true (List.mem_range.mp ha)
      rw [h1, List.length_range]
      simp
    rw [hd, hcnt, if_pos rfl]
  · norm_num [map_direction_bin, digitize, listMax, get_direction_bin_array,
      List.range_succ, List.countP_cons]
  · norm_num [map_direction_bin, digitize, listMax, get_direction_bin_array,
      List.range_succ, List.countP_cons]

/-- Concrete instantiation of `c1_direction_bin_total`. -/
theorem c1_direction_bin_total_witness :
    1 ≤ map_direction_bin 5 (get_direction_bin_array 12) 12 ∧
      map_direction_bin 5 (get_direction_bin_array 12) 12 ≤ 12 :=
  (c1_direction_bin_total 12 (by norm_num)).1 5 (by norm_num) (by norm_num)

/-- Counterexample to claim C1 as stated: with the default zero-centred
array for `S = 12` the maximum edge is `375`, and `_map_direction_bin`
sends it to sector `1` (wrapped across the seam), not to the last sector
`12`. -/
theorem c1_counterexample :
    listMax (get_direction_bin_array 12) = 375 ∧
    map_direction_bin 375 (get_direction_bin_array 12) 12 = 1 ∧ (1 : ℕ) ≠ 12 := by
  refine ⟨?_, ?_, by norm_num⟩
  · norm_num [listMax, get_direction_bin_array, List.range_succ]
  · norm_num [map_direction_bin, digitize, listMax, get_direction_bin_array,
      List.range_succ, List.countP_cons]

/-! ### The zero-centred constant-direction scenario (claim C4) -/

theorem finset_sort_eq (s : Finset ℕ) (l : List ℕ)
    (hs : l.Sorted (· ≤ ·)) (hn : l.Nodup) (hm : ∀ a, a ∈ l ↔ a ∈ s) :
    s.sort (· ≤ ·) = l := by
  refine List.eq_of_perm_of_sorted ?_ (Finset.sort_sorted _ _) hs
  have hfin : l.toFinset = s := Finset.ext fun a => by
    rw [List.mem_toFinset]
    exact hm a
  have hval : (l : Multiset ℕ) = s.val := by
    refine Multiset.Nodup.toFinset_inj (by exact_mod_cast hn) s.nodup ?_
    rw [Finset.val_toFinset]
    exact hfin
  refine Multiset.coe_eq_coe.mp ?_
  rw [Finset.sort_eq, ← hval]

theorem toFinset_replicate_pos {α : Type} [DecidableEq α] {n : ℕ}
    (hn : 0 < n) (a : α) : (List.replicate n a).toFinset = {a} := by
  induction n with
  | zero => exact absurd hn (lt_irrefl 0)
  | succ m ih =>
    rw [List.replicate_succ, List.toFinset_cons]
    rcases Nat.eq_zero_or_pos m with h0 | hpos
    · rw [h0]
      simp
    · rw [ih hpos]
      simp

/-- Claim C4: for a direction series constantly at 5° and a constant value
100.0, `dist_by_dir_sector` with 12 sectors and `%frequency` returns sector 1
labeled `345-15` with value 100.0 and all other 11 sectors at 0.0. -/
theorem c4_constant_direction (n : ℕ) (hn : 0 < n) :
    dist_by_dir_sector_result (List.replicate n ((100 : ℚ), (5 : ℚ))) 12 =
      Except.ok [("345-15", (100 : ℚ)), ("15-45", 0), ("45-75", 0),
        ("75-105", 0), ("105-135", 0), ("135-165", 0), ("165-195", 0),
        ("195-225", 0), ("225-255", 0), ("255-285", 0), ("285-315", 0),
        ("315-345", 0)] := by
  have hnq : ((n : ℚ)) ≠ 0 := Nat.cast_ne_zero.mpr (by omega)
  have hbins12 : get_direction_bin_array 12 =
      [-15, 15, 45, 75, 105, 135, 165, 195, 225, 255, 285, 315, 345, 375] := by
    norm_num [get_direction_bin_array, List.range_succ]
  have hbin5 : map_direction_bin 5 (get_direction_bin_array 12) 12 = 1 := by
    norm_num [map_direction_bin, digitize, listMax, get_direction_bin_array,
      List.range_succ, List.countP_cons]
  have hlabels : get_direction_bin_labels 12 (get_direction_bin_array 12) true =
      ["345-15", "15-45", "45-75", "75-105", "105-135", "135-165", "165-195",
       "195-225", "225-255", "255-285", "285-315", "315-345"] := by
    rw [hbins12]
    decide
  have hbinned : direction_binned (List.replicate n ((100 : ℚ), (5 : ℚ)))
      (get_direction_bin_array 12) 12 = List.replicate n ((100 : ℚ), (1 : ℕ)) := by
    rw [direction_binned, List.map_replicate]
    exact congrArg (List.replicate n) (by rw [hbin5])
  have hsort : (Finset.Icc 1 12 : Finset ℕ).sort (· ≤ ·) =
      [1, 2, 3, 4, 5, 6, 7, 8, 9, 10, 11, 12] := by
    refine finset_sort_eq _ _ (by decide) (by decide) fun a => ?_
    simp only [Finset.mem_Icc, List.mem_cons, List.not_mem_nil, or_false]
    omega
  have hfil : (List.replicate n ((100 : ℚ), (1 : ℕ))).filter
      (fun p => decide (p.2 = 1)) = List.replicate n ((100 : ℚ), (1 : ℕ)) := by
    refine List.filter_eq_self.mpr fun a ha => ?_
    rw [List.eq_of_mem_replicate ha]
    decide
  have hfreq : dist_by_dir_sector_freq (List.replicate n ((100 : ℚ), (5 : ℚ)))
      12 (get_direction_bin_array 12) =
      [(1, (100 : ℚ)), (2, 0), (3, 0), (4, 0), (5, 0), (6, 0), (7, 0), (8, 0),
       (9, 0), (10, 0), (11, 0), (12, 0)] := by
    unfold dist_by_dir_sector_freq dist_by_dir_sector_core
    rw [hbinned]
    simp only [List.map_replicate]
    rw [toFinset_replicate_pos hn,
      show ({1} ∪ Finset.Icc 1 12 : Finset ℕ) = Finset.Icc 1 12 by decide,
      hsort]
    simp only [List.map_cons, List.map_nil, Finset.mem_singleton, hfil]
    norm_num [List.length_replicate, div_self hnq]
  rw [dist_by_dir_sector_result, hlabels, hfreq, set_index]
  norm_num

/-- Concrete instantiation of `c4_constant_direction`. -/
theorem c4_constant_direction_witness :
    dist_by_dir_sector_result (List.replicate 3 ((100 : ℚ), (5 : ℚ))) 12 =
      Except.ok [("345-15", (100 : ℚ)), ("15-45", 0), ("45-75", 0),
        ("75-105", 0), ("105-135", 0), ("135-165", 0), ("165-195", 0),
        ("195-225", 0), ("225-255", 0), ("255-285", 0), ("285-315", 0),
        ("315-345", 0)] :=
  c4_constant_direction 3 (by norm_num)


/-! ### Continuity-gap detection round trip (claim C5) -/

theorem range_k6_split (k : ℕ) :
    List.range (k + 6) = [0, 1] ++ ((List.range (k + 1)).map (2 + ·)) ++
      ([k + 3, k + 4, k + 5] : List ℕ) := by
  rw [show k + 6 = 2 + ((k + 1) + 3) by omega, List.range_add, List.range_add,
    List.map_append, List.map_map, ← List.append_assoc,
    show List.range 2 = ([0, 1] : List ℕ) from by decide,
    show List.range 3 = ([0, 1, 2] : List ℕ) from by decide]
  simp only [List.map_cons, List.map_nil, Function.comp_apply]
  congr 1
  simp only [List.cons.injEq, and_true]
  omega

theorem removed_window_index (k : ℕ) (r : ℚ) (hr : 0 < r) :
    remove_window (regular_index (k + 6) r) (2*r) (((k + 2 : ℕ) : ℚ) * r) =
      [0, r, ((k : ℚ) + 3)*r, ((k : ℚ) + 4)*r, ((k : ℚ) + 5)*r] := by
  rw [remove_window, regular_index, List.filter_map, range_k6_split,
    List.filter_append, List.filter_append]
  have hseg1 : List.filter
      ((fun t => decide ¬(2*r ≤ t ∧ t ≤ ((k + 2 : ℕ) : ℚ) * r)) ∘
        fun i : ℕ => (i : ℚ) * r) [0, 1] = [0, 1] := by
    refine List.filter_eq_self.mpr fun a ha => ?_
    rcases List.mem_cons.mp ha with rfl | ha2
    · simp only [Function.comp_apply, decide_eq_true_eq]
      push_cast
      intro hcon
      nlinarith [hcon.1]
    · rcases List.mem_cons.mp ha2 with rfl | ha3
      · simp only [Function.comp_apply, decide_eq_true_eq]
        push_cast
        intro hcon
        nlinarith [hcon.1]
      · simp at ha3
  have hseg2 : List.filter
      ((fun t => decide ¬(2*r ≤ t ∧ t ≤ ((k + 2 : ℕ) : ℚ) * r)) ∘
        fun i : ℕ => (i : ℚ) * r)
      ((List.range (k + 1)).map (2 + ·)) = [] := by
    refine List.filter_eq_nil_iff.mpr fun a ha => ?_
    obtain ⟨j, hj, rfl⟩ := List.mem_map.mp ha
    have hjk : j ≤ k := by
      have := List.mem_range.mp hj
      omega
    simp only [Function.comp_apply, decide_eq_true_eq, not_not]
    push_cast
    constructor
    · nlinarith [Nat.cast_nonneg (α := ℚ) j]
    · have hcle : ((j : ℚ)) ≤ (k : ℚ) := by exact_mod_cast hjk
      nlinarith
  have hseg3 : List.filter
      ((fun t => decide ¬(2*r ≤ t ∧ t ≤ ((k + 2 : ℕ) : ℚ) * r)) ∘
        fun i : ℕ => (i : ℚ) * r) ([k + 3, k + 4, k + 5] : List ℕ) =
      [k + 3, k + 4, k + 5] := by
    refine List.filter_eq_self.mpr fun a ha => ?_
    have hage : k + 3 ≤ a := by
      rcases List.mem_cons.mp ha with rfl | h2
      · omega
      rcases List.mem_cons.mp h2 with rfl | h3
      · omega
      rcases List.mem_cons.mp h3 with rfl | h4
      · omega
      · simp at h4
    simp only [Function.comp_apply, decide_eq_true_eq]
    push_cast
    intro hcon
    have hcle : ((k : ℚ)) + 3 ≤ (a : ℚ) := by exact_mod_cast hage
    nlinarith [hcon.2]
  rw [hseg1, hseg2, hseg3]
  simp only [List.append_nil, List.map_append, List.map_cons, List.map_nil]
  push_cast
  norm_num

/-- Claim C5: removing a closed window spanning `k` resolution units (the
`k + 1` samples from `2r` through `(k+2)r`) from an otherwise regular series
at resolution `r` yields exactly one reported gap — the triple
`(gap_start + resolution, gap_end - resolution, days_lost)` evaluates to
`(2r, (k+2)r, k·r)`, i.e. `k` resolution units of days lost — and the
single-sample case `k = 0`, whose adjusted span is exactly zero, is reported
with `days_lost` equal to one resolution unit instead of `0`. -/
theorem c5_gap_round_trip (k : ℕ) (r : ℚ) (hr : 0 < r) :
    time_continuity_gaps (remove_window (regular_index (k + 6) r) (2*r)
      (((k + 2 : ℕ) : ℚ) * r)) =
      [(2*r, ((k : ℚ) + 2)*r, if k = 0 then r else (k : ℚ)*r)] := by
  rw [removed_window_index k r hr]
  have hne1 : ¬(((k : ℚ) + 2)*r = r) := by
    intro h
    have hk0 : (0 : ℚ) ≤ (k : ℚ) := Nat.cast_nonneg k
    nlinarith
  have hdeltas : (List.zip
      (List.dropLast [0, r, ((k : ℚ) + 3)*r, ((k : ℚ) + 4)*r, ((k : ℚ) + 5)*r])
      ([0, r, ((k : ℚ) + 3)*r, ((k : ℚ) + 4)*r, ((k : ℚ) + 5)*r].drop 1)).map
        (fun p => p.2 - p.1) =
      [r - 0, ((k : ℚ) + 3)*r - r, ((k : ℚ) + 4)*r - ((k : ℚ) + 3)*r,
        ((k : ℚ) + 5)*r - ((k : ℚ) + 4)*r] := rfl
  have e1 : r - 0 = r := by ring
  have e2 : ((k : ℚ) + 3)*r - r = ((k : ℚ) + 2)*r := by ring
  have e3 : ((k : ℚ) + 4)*r - ((k : ℚ) + 3)*r = r := by ring
  have e4 : ((k : ℚ) + 5)*r - ((k : ℚ) + 4)*r = r := by ring
  have hc1 : List.count r [r, ((k : ℚ) + 2)*r, r, r] = 3 := by
    simp [List.count_cons, beq_iff_eq, hne1]
  have hc2 : List.count (((k : ℚ) + 2)*r) [r, ((k : ℚ) + 2)*r, r, r] = 1 := by
    have hne1s : ¬(r = ((k : ℚ) + 2)*r) := fun h => hne1 h.symm
    simp [List.count_cons, beq_iff_eq, hne1s]
  have hmode : modeOf [r, ((k : ℚ) + 2)*r, r, r] = r := by
    rw [modeOf]
    simp only [List.headD_cons, List.foldl_cons, List.foldl_nil, hc1, hc2]
    norm_num
  have hres : get_data_resolution
      [0, r, ((k : ℚ) + 3)*r, ((k : ℚ) + 4)*r, ((k : ℚ) + 5)*r] = r := by
    rw [get_data_resolution, hdeltas, e1, e2, e3, e4, hmode]
  unfold time_continuity_gaps
  rw [hres]
  dsimp only
  have hcont : (List.zip
      (List.dropLast [0, r, ((k : ℚ) + 3)*r, ((k : ℚ) + 4)*r, ((k : ℚ) + 5)*r])
      ([0, r, ((k : ℚ) + 3)*r, ((k : ℚ) + 4)*r, ((k : ℚ) + 5)*r].drop 1)).map
        (fun p => (p.1, p.2, p.2 - p.1)) =
      [((0 : ℚ), r, r - 0), (r, ((k : ℚ) + 3)*r, ((k : ℚ) + 3)*r - r),
       (((k : ℚ) + 3)*r, ((k : ℚ) + 4)*r, ((k : ℚ) + 4)*r - ((k : ℚ) + 3)*r),
       (((k : ℚ) + 4)*r, ((k : ℚ) + 5)*r, ((k : ℚ) + 5)*r - ((k : ℚ) + 4)*r)] := rfl
  rw [hcont, e1, e2, e3, e4]
  have hfilter : List.filter (fun t => decide ¬(t.2.2 = r))
      [((0 : ℚ), r, r), (r, ((k : ℚ) + 3)*r, ((k : ℚ) + 2)*r),
       (((k : ℚ) + 3)*r, ((k : ℚ) + 4)*r, r),
       (((k : ℚ) + 4)*r, ((k : ℚ) + 5)*r, r)] =
      [(r, ((k : ℚ) + 3)*r, ((k : ℚ) + 2)*r)] := by
    simp [List.filter_cons, hne1]
  rw [hfilter]
  simp only [List.map_cons, List.map_nil]
  have f1 : r + r = 2*r := by ring
  have f3 : (((k : ℚ) + 3)*r - r) - (r + r) = (k : ℚ)*r := by ring
  rw [f3, f1, e2]
  by_cases hk : k = 0
  · subst hk
    norm_num
  · have hkr : ¬((k : ℚ)*r = 0) := by
      intro h
      rcases mul_eq_zero.mp h with hzero | hzero
      · exact hk (by exact_mod_cast hzero)
      · exact absurd hzero (ne_of_gt hr)
    rw [if_neg hkr, if_neg hk]

/-- Concrete instantiation of `c5_gap_round_trip`. -/
theorem c5_gap_round_trip_witness :
    time_continuity_gaps (remove_window (regular_index (2 + 6) 1) (2*1)
      (((2 + 2 : ℕ) : ℚ) * 1)) =
      [(2*1, ((2 : ℚ) + 2)*1, if (2 : ℕ) = 0 then 1 else ((2 : ℕ) : ℚ)*1)] :=
  c5_gap_round_trip 2 1 (by norm_num)

/-! ### Infinity handling of dist (claim C7) -/

/-- Claim C7 (amended): `dist` filters infinite and undefined per-bin
statistics out of the series it hands to the plot renderer (the cleaned copy
is a sub-list of the distribution, every surviving cell finite), but the
distribution returned to the caller is the raw aggregation — the replacement
never touches it, so infinity can propagate to the caller (see the
counterexample). -/
theorem c7_plot_input_cleaned (rows : List (ℚ × ℚ)) (bins : List ℚ)
    (agg : List ℚ → FloatVal) :
    (∀ p ∈ dist_plot_input rows bins agg, p.2.isFinite = true) ∧
    (∀ p ∈ dist_plot_input rows bins agg, p ∈ dist_agg_returned rows bins agg) := by
  constructor
  · intro p hp
    exact (List.mem_filter.mp hp).2
  · intro p hp
    exact (List.mem_filter.mp hp).1

/-- Concrete instantiation of `c7_plot_input_cleaned`. -/
theorem c7_plot_input_cleaned_witness :
    ((0 : ℕ), FloatVal.num 7).2.isFinite = true :=
  (c7_plot_input_cleaned [((1 : ℚ), (1 : ℚ))] [0, 2] (fun _ => FloatVal.num 7)).1
    ((0 : ℕ), FloatVal.num 7)
    (by
      refine List.mem_filter.mpr ⟨?_, rfl⟩
      rw [dist_agg_returned]
      exact List.mem_map.mpr ⟨0, by decide, rfl⟩)

/-- Counterexample to claim C7 as stated: with a custom aggregation that is
infinite on a bin, the distribution `dist` returns to the caller contains the
infinity (only the copy plotted is cleaned, to emptiness here). -/
theorem c7_counterexample :
    (0, FloatVal.inf) ∈ dist_agg_returned [((1 : ℚ), (1 : ℚ))] [0, 2]
      (fun _ => FloatVal.inf) ∧
    dist_plot_input [((1 : ℚ), (1 : ℚ))] [0, 2] (fun _ => FloatVal.inf) = [] := by
  constructor
  · rw [dist_agg_returned]
    exact List.mem_map.mpr ⟨0, by decide, rfl⟩
  · rfl

/-! ### Label-count mismatch handling (claim C8) -/

/-- Claim C8 is contradicted by the code: at the failing input
(`plot_bins` left to default, a two-element `plot_labels`), `freq_table`
takes the branch that emits the warning whose text promises "Using default
plot_labels", yet hands the caller-supplied mismatched labels to the plot
unchanged; and `dist` with a wrong-length `bin_labels` performs an index
assignment that raises instead of falling back. -/
theorem c8_label_mismatch_behaviour :
    freq_table_warns none (some ["a", "b"]) = true ∧
    freq_table_plot_params none (some ["a", "b"]) =
      (default_plot_bins, some ["a", "b"]) ∧
    some ["a", "b"] ≠ some default_plot_labels ∧
    set_index ["a", "b"] [(0, (50 : ℚ)), (1, 30), (2, 20)] =
      Except.error "Length mismatch" := by
  refine ⟨rfl, rfl, by decide, rfl⟩

/-! ### Linear bin-edge construction (claim C9) -/

theorem linspace_getD (mn mx : ℚ) (n : ℕ) {i : ℕ} (hi : i ≤ n) :
    (linspace mn mx n).getD i 0 = mn + (i : ℚ) * ((mx - mn)/n) := by
  rw [linspace, List.getD_eq_getElem?_getD, List.getElem?_map,
    List.getElem?_range (by omega), Option.map_some', Option.getD_some]

/-- Claim C9 (amended): in `dist_matrix` and `dist_matrix_by_dir_sector` the
bin edges are built in priority order — an explicit edge array verbatim; an
explicit count `n` as `n+1` evenly spaced edges spanning `[min, max]`; and
by default unit-width integer edges starting at `floor(min)` whose final
edge is `ceil(max) + 1` when `max` is an exact integer (so the maximum lies
inside the last half-open bin).  Amendment forced by the counterexample:
`dist` does not share this default — its edges run from
`round(min - 0.5) - 0.5` in unit steps up to `max + 0.5` exclusive, and its
maximum value need not fall inside any bin. -/
theorem c9_bin_edge_construction :
    (∀ (mn mx : ℚ) (onum : Option ℕ) (bs : List ℚ),
      dist_matrix_bins mn mx onum (some bs) = bs) ∧
    (∀ (mn mx : ℚ) (n : ℕ), 1 ≤ n →
      dist_matrix_bins mn mx (some n) none = linspace mn mx n ∧
      (linspace mn mx n).length = n + 1 ∧
      (linspace mn mx n).getD 0 0 = mn ∧
      (linspace mn mx n).getD n 0 = mx ∧
      (∀ i, i < n → (linspace mn mx n).getD (i + 1) 0 -
        (linspace mn mx n).getD i 0 = (mx - mn)/n)) ∧
    (∀ mn mx : ℚ, mn ≤ mx → ∃ m : ℕ, 2 ≤ m ∧
      dist_matrix_bins mn mx none none =
        (List.range m).map (fun i : ℕ => ((⌊mn⌋ : ℚ) + (i : ℚ))) ∧
      (⌊mn⌋ : ℚ) + ((m - 2 : ℕ) : ℚ) ≤ mx ∧
      mx < (⌊mn⌋ : ℚ) + ((m - 1 : ℕ) : ℚ)) := by
  refine ⟨?_, ?_, ?_⟩
  · intro mn mx onum bs
    cases onum <;> rfl
  · intro mn mx n hn
    have hnq : ((n : ℚ)) ≠ 0 := Nat.cast_ne_zero.mpr (by omega)
    refine ⟨rfl, ?_, ?_, ?_, ?_⟩
    · rw [linspace, List.length_map, List.length_range]
    · rw [linspace_getD mn mx n (by omega)]
      push_cast
      ring
    · rw [linspace_getD mn mx n (le_refl n)]
      field_simp
    · intro i hi
      rw [linspace_getD mn mx n (by omega), linspace_getD mn mx n (by omega)]
      push_cast
      ring
  · intro mn mx hle
    have hfl : (⌊mn⌋ : ℚ) ≤ mn := Int.floor_le mn
    have hcl : mx ≤ (⌈mx⌉ : ℚ) := Int.le_ceil mx
    have hfc : ⌊mn⌋ ≤ ⌈mx⌉ := by
      have : (⌊mn⌋ : ℚ) ≤ (⌈mx⌉ : ℚ) := le_trans hfl (le_trans hle hcl)
      exact_mod_cast this
    by_cases hint : isIntQ mx
    · -- max is an exact integer: the stop is ceil(max) + 2
      have hmxint : ((mx.num : ℤ) : ℚ) = mx := (Rat.den_eq_one_iff mx).mp
        (by simpa [isIntQ] using hint)
      have hceil : (⌈mx⌉ : ℚ) = mx := by
        rw [← hmxint, Int.ceil_intCast]
      refine ⟨(⌈mx⌉ + 2 - ⌊mn⌋).toNat, ?_, ?_, ?_, ?_⟩
      · omega
      · show matrix_default_bins mn mx = _
        rw [matrix_default_bins, if_pos hint]
        rw [arange1_eval _ _ ((⌈mx⌉ + 2 - ⌊mn⌋).toNat) (by
          push_cast [Int.toNat_of_nonneg (by omega : (0 : ℤ) ≤ ⌈mx⌉ + 2 - ⌊mn⌋)]
          rw [show ((⌈mx⌉ : ℚ) + 1 + 1 - ⌊mn⌋ : ℚ) = ((⌈mx⌉ + 2 - ⌊mn⌋ : ℤ) : ℚ) by
            push_cast
            ring]
          exact Int.ceil_intCast _)]
      · have hcast2 : ((((⌈mx⌉ + 2 - ⌊mn⌋).toNat - 2 : ℕ)) : ℚ) =
            (⌈mx⌉ : ℚ) - ⌊mn⌋ := by
          have h1 : ((⌈mx⌉ + 2 - ⌊mn⌋).toNat - 2 : ℕ) = (⌈mx⌉ - ⌊mn⌋).toNat := by
            omega
          rw [h1]
          exact_mod_cast congrArg (fun z : ℤ => (z : ℚ))
            (Int.toNat_of_nonneg (by omega : (0 : ℤ) ≤ ⌈mx⌉ - ⌊mn⌋))
        rw [hcast2, hceil]
        linarith
      · have hcast1 : ((((⌈mx⌉ + 2 - ⌊mn⌋).toNat - 1 : ℕ)) : ℚ) =
            (⌈mx⌉ : ℚ) + 1 - ⌊mn⌋ := by
          have h1 : ((⌈mx⌉ + 2 - ⌊mn⌋).toNat - 1 : ℕ) = (⌈mx⌉ + 1 - ⌊mn⌋).toNat := by
            omega
          rw [h1]
          exact_mod_cast congrArg (fun z : ℤ => (z : ℚ))
            (Int.toNat_of_nonneg (by omega : (0 : ℤ) ≤ ⌈mx⌉ + 1 - ⌊mn⌋))
        rw [hcast1, hceil]
        linarith
    · -- max is not an exact integer: the stop is ceil(max) + 1
      have hnint : mx ≠ ((⌈mx⌉ : ℤ) : ℚ) := by
        intro h
        refine hint ?_
        rw [isIntQ, h]
        simp
      have hlt : mx < (⌈mx⌉ : ℚ) := lt_of_le_of_ne hcl hnint
      have hfc1 : ⌊mn⌋ + 1 ≤ ⌈mx⌉ := by
        have : (⌊mn⌋ : ℚ) < (⌈mx⌉ : ℚ) := lt_of_le_of_lt (le_trans hfl hle) hlt
        have h2 : ⌊mn⌋ < ⌈mx⌉ := by exact_mod_cast this
        omega
      refine ⟨(⌈mx⌉ + 1 - ⌊mn⌋).toNat, by omega, ?_, ?_, ?_⟩
      · show matrix_default_bins mn mx = _
        rw [matrix_default_bins, if_neg hint]
        rw [arange1_eval _ _ ((⌈mx⌉ + 1 - ⌊mn⌋).toNat) (by
          push_cast [Int.toNat_of_nonneg (by omega : (0 : ℤ) ≤ ⌈mx⌉ + 1 - ⌊mn⌋)]
          rw [show ((⌈mx⌉ : ℚ) + 1 + 0 - ⌊mn⌋ : ℚ) = ((⌈mx⌉ + 1 - ⌊mn⌋ : ℤ) : ℚ) by
            push_cast
            ring]
          exact Int.ceil_intCast _)]
      · have hcast2 : ((((⌈mx⌉ + 1 - ⌊mn⌋).toNat - 2 : ℕ)) : ℚ) =
            (⌈mx⌉ : ℚ) - 1 - ⌊mn⌋ := by
          have h1 : ((⌈mx⌉ + 1 - ⌊mn⌋).toNat - 2 : ℕ) = (⌈mx⌉ - 1 - ⌊mn⌋).toNat := by
            omega
          rw [h1]
          exact_mod_cast congrArg (fun z : ℤ => (z : ℚ))
            (Int.toNat_of_nonneg (by omega : (0 : ℤ) ≤ ⌈mx⌉ - 1 - ⌊mn⌋))
        rw [hcast2]
        have hc1 : (⌈mx⌉ : ℚ) < mx + 1 := Int.ceil_lt_add_one mx
        linarith
      · have hcast1 : ((((⌈mx⌉ + 1 - ⌊mn⌋).toNat - 1 : ℕ)) : ℚ) =
            (⌈mx⌉ : ℚ) - ⌊mn⌋ := by
          have h1 : ((⌈mx⌉ + 1 - ⌊mn⌋).toNat - 1 : ℕ) = (⌈mx⌉ - ⌊mn⌋).toNat := by
            omega
          rw [h1]
          exact_mod_cast congrArg (fun z : ℤ => (z : ℚ))
            (Int.toNat_of_nonneg (by omega : (0 : ℤ) ≤ ⌈mx⌉ - ⌊mn⌋))
        rw [hcast1]
        linarith

/-- Concrete instantiation of `c9_bin_edge_construction`. -/
theorem c9_bin_edge_construction_witness :
    (linspace 0 3 3).getD 3 0 = 3 :=
  (c9_bin_edge_construction.2.1 0 3 3 (by norm_num)).2.2.2.1

/-- Counterexample to claim C9 as stated: `dist` does not build the
`floor(min) … ceil(max)+1` default edges — for a series with minimum 0 and
maximum 3 it builds `[-0.5, 0.5, 1.5, 2.5]` (differing from `dist_matrix`'s
`[0, 1, 2, 3, 4]`), and the maximum value 3 falls inside no bin at all. -/
theorem c9_counterexample :
    dist_default_bins 0 3 = [-(1/2 : ℚ), 1/2, 3/2, 5/2] ∧
    matrix_default_bins 0 3 = [0, 1, 2, 3, 4] ∧
    dist_default_bins 0 3 ≠ matrix_default_bins 0 3 ∧
    linear_cut (dist_default_bins 0 3) 3 = none := by
  have he1 : dist_default_bins 0 3 = [-(1/2 : ℚ), 1/2, 3/2, 5/2] := by
    rw [dist_default_bins, show pyround ((0 : ℚ) - 1/2) = 0 by norm_num [pyround],
      arange1_eval _ _ 4 (by norm_num)]
    norm_num [List.range_succ]
  have he2 : matrix_default_bins 0 3 = [0, 1, 2, 3, 4] := by
    rw [matrix_default_bins, show isIntQ 3 = true from rfl,
      arange1_eval _ _ 5 (by norm_num)]
    norm_num [List.range_succ]
  refine ⟨he1, he2, ?_, ?_⟩
  · rw [he1, he2]
    norm_num
  · rw [he1]
    norm_num [linear_cut, List.countP_cons]

end Brightwind
